import Mathlib

/-!
Verification of the wordle repository's guess-evaluation algorithm, game
state machine, keyboard aggregation and share rendering, against a shallow
embedding of the two source files (`src/game.rs`, the raw-terminal variant,
and `src/bin/wordle/controller/tui.rs`, the TUI variant) plus models of the
repository modules that are referenced but not present in the source tree
(`logic`, `words`, `cl_wordle::state`, the TUI `keyboard` module).

Words are `List Char`; the two dictionaries (`words::ACCEPT`, `words::FINAL`)
are abstract parameters `accept final : List Word`.
-/

namespace Wordle

/-- A 5-letter word is a list of characters; the length invariant is stated
in theorems, not baked into the type. -/
abbrev Word := List Char

/-- Modelled from the spec: `MatchKind` of the missing `logic` module
(`logic::Match` with variants Green/Amber/Black in the raw variant,
Exact/Present/Absent in the TUI variant): Exact = correct letter in correct
position, Present = letter occurs elsewhere subject to duplicate counts,
Absent = no remaining occurrence. -/
inductive MatchKind where
  | exact
  | present
  | absent
deriving DecidableEq, Repr

/-- Modelled from the spec: the per-letter "remaining count" budget after
the first (Exact) pass, represented as the multiset of solution letters at
the positions that were not Exact.  For each letter `c` its multiplicity in
this list equals (count of `c` in the solution) minus (number of Exact
positions carrying `c`), which is exactly the remaining count the spec's
histogram-decrement formulation produces. -/
def initialRemaining (g s : Word) : List Char :=
  (List.zip g s).filterMap (fun p => if p.1 = p.2 then none else some p.2)

/-- Modelled from the spec: the position-by-position classification pass.
Exact positions (already decided in the first pass) never touch the
remaining budget; every non-Exact position is marked Present, consuming one
occurrence from the budget, when its guessed letter still has remaining
count > 0, and Absent otherwise. -/
def scoreAux : List (Char × Char) → List Char → List MatchKind
  | [], _ => []
  | (gc, sc) :: rest, rem =>
    if gc = sc then
      MatchKind.exact :: scoreAux rest rem
    else if gc ∈ rem then
      MatchKind.present :: scoreAux rest (rem.erase gc)
    else
      MatchKind.absent :: scoreAux rest rem

/-- Modelled from the spec: `Matcher.score(guess, solution)` (the missing
`logic::diff`): the two-pass duplicate-aware scoring.  The first pass marks
Exact matches and fixes the remaining counts (`initialRemaining`); the
second pass assigns Present/Absent left to right against those counts. -/
def score (g s : Word) : List MatchKind :=
  scoreAux (List.zip g s) (initialRemaining g s)

/-- Modelled from the spec: the best-known per-letter status kept by the
missing TUI `keyboard` module, ordered Unknown < Absent < Present < Exact. -/
inductive KeyStatus where
  | unknown
  | absent
  | present
  | exact
deriving DecidableEq, Repr

/-- Numeric rank realising the total order Exact > Present > Absent > Unknown. -/
def KeyStatus.rank : KeyStatus → Nat
  | .unknown => 0
  | .absent => 1
  | .present => 2
  | .exact => 3

/-- Maximum of two statuses under the rank order. -/
def ksMax (a b : KeyStatus) : KeyStatus :=
  if a.rank ≤ b.rank then b else a

/-- The status observed from one scored MatchKind. -/
def matchStatus : MatchKind → KeyStatus
  | .exact => .exact
  | .present => .present
  | .absent => .absent

/-- Modelled from the spec: `KeyboardStatus.update(word, result)` folds one
GuessResult into the aggregate: for each (letter, kind) pair the stored
status becomes `max(existing, kind)` in the rank order.  The keyboard is a
total map from letters, initially all `unknown`. -/
def kbUpdate (kb : Char → KeyStatus) (w : Word) (r : List MatchKind) :
    Char → KeyStatus :=
  (List.zip w r).foldl
    (fun acc p => fun c =>
      if c = p.1 then ksMax (acc c) (matchStatus p.2) else acc c)
    kb

/-- Outcome of the game state machine (spec §4.3): InProgress, Won(n) with
n the number of guesses used, Lost. -/
inductive Outcome where
  | inProgress
  | won (n : Nat)
  | lost
deriving DecidableEq, Repr

/-- Won and Lost are the terminal states. -/
def Outcome.isTerminal : Outcome → Bool
  | .inProgress => false
  | .won _ => true
  | .lost => true

/-- The typed errors of `submit_guess` (the missing `cl_wordle::state`
module's GuessError, spec §4.3/§7). -/
inductive GuessError where
  | wrongLength
  | notInDictionary
  | gameOver
deriving DecidableEq, Repr

/-- Modelled from the spec: the GameState of the missing `cl_wordle::state`
module: solution, append-only (word, result) list, outcome, plus the
KeyboardStatus the controller folds every successful result into. -/
structure GameState where
  solution : Word
  guesses : List (Word × List MatchKind)
  outcome : Outcome
  keyboard : Char → KeyStatus

/-- A fresh game: no guesses, InProgress, all letters Unknown. -/
def initState (sol : Word) : GameState :=
  { solution := sol, guesses := [], outcome := .inProgress,
    keyboard := fun _ => .unknown }

/-- Modelled from the spec: `submit_guess(word)` of the missing
`cl_wordle::state` module (spec §4.3).  A terminal outcome always fails
with GameOver (spec §8); then WrongLength if the candidate is not 5
letters; then NotInDictionary if the word is in neither the
acceptable-guess set nor the solution set.  On success it scores the word,
appends (word, result), folds the result into the keyboard, and moves to
Won(guesses.len()) on an exact match, Lost on a sixth non-matching guess,
and otherwise stays InProgress. -/
def submitGuess (accept final : List Word) (st : GameState) (w : Word) :
    Except GuessError GameState :=
  if st.outcome.isTerminal then .error .gameOver
  else if w.length ≠ 5 then .error .wrongLength
  else if ¬ (w ∈ accept ∨ w ∈ final) then .error .notInDictionary
  else
    let result := score w st.solution
    let guesses := st.guesses ++ [(w, result)]
    Except.ok
      { st with
        guesses := guesses,
        keyboard := kbUpdate st.keyboard w result,
        outcome :=
          if w = st.solution then .won guesses.length
          else if guesses.length = 6 then .lost
          else .inProgress }

/-- Driving the state machine over a list of submissions; a rejected
submission leaves the state untouched, exactly as a caller that keeps its
state on an `Err` return. -/
def stepStar (accept final : List Word) : GameState → List Word → GameState
  | st, [] => st
  | st, w :: ws =>
    match submitGuess accept final st w with
    | .ok st' => stepStar accept final st' ws
    | .error _ => stepStar accept final st ws

/-- Key events reaching the raw-terminal loop (termion): Enter arrives as
`Key::Char('\n')`, so it is a `char` event here. -/
inductive Key where
  | esc
  | char (c : Char)
  | backspace
  | other

/-- Rust `char::is_ascii`: the code point is at most 0x7F. -/
def rustIsAscii (c : Char) : Bool :=
  c.toNat ≤ 0x7F

/-- Rust `char::to_ascii_lowercase`: maps only ASCII uppercase letters. -/
def rustToAsciiLowercase (c : Char) : Char :=
  if 65 ≤ c.toNat ∧ c.toNat ≤ 90 then Char.ofNat (c.toNat + 32) else c

/-- Rust `char::is_ascii_alphabetic` (the TUI variant's input guard,
tui.rs line 49). -/
def rustIsAsciiAlphabetic (c : Char) : Bool :=
  decide ((65 ≤ c.toNat ∧ c.toNat ≤ 90) ∨ (97 ≤ c.toNat ∧ c.toNat ≤ 122))

/-- The TUI variant's character acceptance (tui.rs lines 49-53): a char key
extends the candidate word only when it is ASCII alphabetic and fewer than
5 characters are typed, and is lowercased first. -/
def tuiAcceptChar (word : Word) (c : Char) : Word :=
  if rustIsAsciiAlphabetic c ∧ word.length < 5 then
    word ++ [rustToAsciiLowercase c]
  else word

/-- Rust `std::char::from_digit(n, 10)`: some digit character when n < 10. -/
def charFromDigit (n : Nat) : Option Char :=
  if n < 10 then some (Char.ofNat (48 + n)) else none

/-- The mutable state of the raw-terminal key loop (src/game.rs
`Game::start`): the candidate word being typed and the submitted guesses. -/
structure LoopState where
  word : Word
  guesses : List Word
deriving DecidableEq, Repr

/-- Result of one loop iteration: keep looping, exit with `None` (Esc), or
exit returning a share built from the guesses and the score character (the
winning branch's character is kept as the `Option` that the source
unwraps). -/
inductive StepResult where
  | cont (st : LoopState)
  | exitNone
  | exitShare (guesses : List Word) (scoreChar : Option Char)
deriving DecidableEq, Repr

/-- One iteration of the raw-terminal key loop, `Game::start`
(src/game.rs lines 85-123), with the match arms in source order.  In
particular `Key::Char(c)` guarded by `c.is_ascii() && word.len() < 5` is
tested before the Enter arm (`Key::Char('\n')` with `word.len() == 5`),
the invalid-word branch only redraws and keeps the typed word, and the
winning branch's score is `char::from_digit(guesses.len(), 10)` (the
source unwraps it). -/
def rawStep (accept final : List Word) (sol : Word) (st : LoopState)
    (k : Key) : StepResult :=
  match k with
  | .esc => .exitNone
  | .char c =>
    if rustIsAscii c ∧ st.word.length < 5 then
      .cont { st with word := st.word ++ [rustToAsciiLowercase c] }
    else if c = '\n' ∧ st.word.length = 5 then
      if ¬ (st.word ∈ accept ∨ st.word ∈ final) then
        .cont st
      else
        let guesses := st.guesses ++ [st.word]
        if st.word = sol then
          .exitShare guesses (charFromDigit guesses.length)
        else if 6 ≤ guesses.length then
          .exitShare guesses (some 'X')
        else
          .cont { word := [], guesses := guesses }
    else
      .cont st
  | .backspace => .cont { st with word := st.word.dropLast }
  | .other => .cont st

/-- Outcome of running the raw-terminal loop on a whole key sequence. -/
inductive RunResult where
  | running (st : LoopState)
  | exitNone
  | exitShare (guesses : List Word) (scoreChar : Option Char)
deriving DecidableEq, Repr

/-- Running the raw-terminal loop over a list of key events. -/
def runLoop (accept final : List Word) (sol : Word) :
    LoopState → List Key → RunResult
  | st, [] => .running st
  | st, k :: ks =>
    match rawStep accept final sol st k with
    | .cont st' => runLoop accept final sol st' ks
    | .exitNone => .exitNone
    | .exitShare gs sc => .exitShare gs sc

/-- The loop starts with an empty candidate and no guesses. -/
def initLoop : LoopState :=
  { word := [], guesses := [] }

/-- GameType of the raw variant (src/game.rs lines 26-30). -/
inductive GameType where
  | daily (day : Nat)
  | custom
deriving DecidableEq, Repr

/-- Display for GameType (src/game.rs lines 32-39): the day number for a
daily game, the literal "custom" otherwise. -/
def gameTypeStr : GameType → List Char
  | .daily day => Nat.toDigits 10 day
  | .custom => "custom".toList

/-- GameShare (src/game.rs lines 193-197): game type, per-guess match
lines, and the score character. -/
structure GameShare where
  game_type : GameType
  matchRows : List (List MatchKind)
  scoreChar : Char
deriving DecidableEq, Repr

/-- `Game::share` (src/game.rs lines 128-140): every stored guess is scored
against the solution with `logic::diff` and kept in guess order. -/
def gameShare (gt : GameType) (guesses : List Word) (sol : Word)
    (sc : Char) : GameShare :=
  { game_type := gt,
    matchRows := guesses.map (fun input => score input sol),
    scoreChar := sc }

/-- Modelled from the spec: the glyph a single MatchKind renders as in the
missing `logic` module's Display for Matches; the spec only requires one
distinct glyph per kind. -/
def matchGlyph : MatchKind → Char
  | .exact => '🟩'
  | .present => '🟨'
  | .absent => '⬛'

/-- The header line `"Wordle {game_type} {score}/6"` written by Display for
GameShare (src/game.rs lines 199-211). -/
def shareHeader (gt : GameType) (sc : Char) : List Char :=
  "Wordle ".toList ++ gameTypeStr gt ++ [' ', sc] ++ "/6".toList

/-- Display for GameShare (src/game.rs lines 199-211) as the list of output
lines: the header, then one line per stored guess, each MatchKind rendered
as its glyph. -/
def shareLines (sh : GameShare) : List (List Char) :=
  shareHeader sh.game_type sh.scoreChar
    :: sh.matchRows.map (fun ms => ms.map matchGlyph)

/-- Invariant tying the outcome of the modelled state machine to its guess
list: while InProgress at most 5 guesses are stored and none equals the
solution; Won n records exactly n guesses (1 ≤ n ≤ 6) whose n-th is the
solution while guesses 1..n-1 are not; Lost records exactly 6 guesses. -/
def StateInv (st : GameState) : Prop :=
  (st.outcome = Outcome.inProgress →
    st.guesses.length ≤ 5 ∧ ∀ p ∈ st.guesses, p.1 ≠ st.solution) ∧
  (∀ n, st.outcome = Outcome.won n →
    n = st.guesses.length ∧ 1 ≤ n ∧ n ≤ 6 ∧
    (st.guesses.get? (n - 1)).map Prod.fst = some st.solution ∧
    ∀ i < n - 1, (st.guesses.get? i).map Prod.fst ≠ some st.solution) ∧
  (st.outcome = Outcome.lost → st.guesses.length = 6)

/-- A concrete terminal (won) state used to exercise the terminal-state
behaviour. -/
def wonState : GameState :=
  { solution := "abbey".toList,
    guesses := [("abbey".toList, score "abbey".toList "abbey".toList)],
    outcome := Outcome.won 1,
    keyboard := fun _ => KeyStatus.unknown }

/-- Every stored guess is a 5-letter word from one of the two word lists
(the membership test at src/game.rs line 95 guards every push). -/
def GuessListOk (accept final : List Word) (gs : List Word) : Prop :=
  ∀ w ∈ gs, w.length = 5 ∧ (w ∈ accept ∨ w ∈ final)

/-- Invariant of the raw-terminal loop state: the candidate never exceeds
5 characters, the stored guesses are valid dictionary words, and at most 5
guesses are stored while the loop is still running. -/
def LoopInv (accept final : List Word) (st : LoopState) : Prop :=
  st.word.length ≤ 5 ∧ GuessListOk accept final st.guesses ∧
    st.guesses.length ≤ 5

/-- What holds of every share-producing exit of the raw-terminal loop: the
guesses are valid, their number is between 1 and 6, the score character
exists (the source's unwrap cannot panic), a winning last guess scores as
`char::from_digit(guesses.len(), 10)`, and a non-winning last guess scores
as 'X' with exactly 6 guesses stored. -/
def ExitOk (accept final : List Word) (sol : Word) (gs : List Word)
    (sc : Option Char) : Prop :=
  GuessListOk accept final gs ∧ 1 ≤ gs.length ∧ gs.length ≤ 6 ∧
    sc.isSome = true ∧
    (gs.getLast? = some sol → sc = charFromDigit gs.length) ∧
    (∀ w, gs.getLast? = some w → w ≠ sol → sc = some 'X' ∧ gs.length = 6)

theorem scoreAux_length (l : List (Char × Char)) (rem : List Char) :
    (scoreAux l rem).length = l.length := by
  induction l generalizing rem with
  | nil => rfl
  | cons p rest ih =>
    obtain ⟨gc, sc⟩ := p
    simp only [scoreAux]
    split
    · simp [ih]
    · split <;> simp [ih]

theorem score_length (g s : Word) :
    (score g s).length = min g.length s.length := by
  simp [score, scoreAux_length, List.length_zip]

theorem scoreAux_all_exact (l : List (Char × Char)) (rem : List Char)
    (h : ∀ p ∈ l, p.1 = p.2) :
    scoreAux l rem = List.replicate l.length MatchKind.exact := by
  induction l generalizing rem with
  | nil => rfl
  | cons p rest ih =>
    obtain ⟨gc, sc⟩ := p
    have hp : gc = sc := h (gc, sc) (List.mem_cons_self _ _)
    simp only [scoreAux, if_pos hp, List.length_cons, List.replicate_succ]
    exact congrArg _ (ih rem (fun q hq => h q (List.mem_cons_of_mem _ hq)))

theorem score_self (g : Word) :
    score g g = List.replicate g.length MatchKind.exact := by
  have hz : List.zip g g = g.map (fun c => (c, c)) := by
    induction g with
    | nil => rfl
    | cons c rest ih => simp [List.zip, ih]
  have : (List.zip g g).length = g.length := by simp [hz]
  rw [score, scoreAux_all_exact, this]
  intro p hp
  rw [hz] at hp
  obtain ⟨c, _, rfl⟩ := List.mem_map.mp hp
  rfl

theorem initialRemaining_subset (g s : Word) :
    ∀ c ∈ initialRemaining g s, c ∈ s := by
  intro c hc
  obtain ⟨⟨gc, sc⟩, hmem, hsome⟩ := List.mem_filterMap.mp hc
  by_cases h : gc = sc
  · simp [h] at hsome
  · simp [h] at hsome
    subst hsome
    exact (List.of_mem_zip hmem).2

theorem scoreAux_absent_letter (c : Char) (s : Word) (hcs : c ∉ s) :
    ∀ (l : List (Char × Char)) (rem : List Char),
      (∀ p ∈ l, p.2 ∈ s) → (∀ x ∈ rem, x ∈ s) →
      ∀ i, (l.get? i).map Prod.fst = some c →
        (scoreAux l rem).get? i = some MatchKind.absent := by
  intro l
  induction l with
  | nil => intro rem _ _ i hi; simp at hi
  | cons p rest ih =>
    intro rem hl hrem i hi
    obtain ⟨gc, sc⟩ := p
    have hsc : sc ∈ s := hl (gc, sc) (List.mem_cons_self _ _)
    have hrest : ∀ p ∈ rest, p.2 ∈ s := fun q hq => hl q (List.mem_cons_of_mem _ hq)
    cases i with
    | zero =>
      simp only [List.get?] at hi
      have hgc : gc = c := by simpa using hi
      subst hgc
      have hne : gc ≠ sc := fun h => hcs (h ▸ hsc)
      have hnr : gc ∉ rem := fun h => hcs (hrem gc h)
      simp [scoreAux, hne, hnr]
    | succ j =>
      simp only [List.get?] at hi
      simp only [scoreAux]
      split
      · exact ih rem hrest hrem j hi
      · split
        · exact ih _ hrest (fun x hx => hrem x (List.mem_of_mem_erase hx)) j hi
        · exact ih rem hrest hrem j hi

theorem zip_get?_of_get? {α β : Type} (g : List α) (s : List β) (i : Nat)
    (a : α) (b : β) (hg : g.get? i = some a) (hs : s.get? i = some b) :
    (List.zip g s).get? i = some (a, b) := by
  induction g generalizing s i with
  | nil => simp at hg
  | cons x xs ih =>
    cases s with
    | nil => simp at hs
    | cons y ys =>
      cases i with
      | zero =>
        simp only [List.get?] at hg hs
        obtain rfl : x = a := Option.some.inj hg
        obtain rfl : y = b := Option.some.inj hs
        rfl
      | succ j =>
        simp only [List.get?] at hg hs ⊢
        exact ih ys j hg hs

theorem score_absent (g s : Word) (c : Char) (hcs : c ∉ s)
    (i : Nat) (hg : g.get? i = some c) (b : Char) (hs : s.get? i = some b) :
    (score g s).get? i = some MatchKind.absent := by
  apply scoreAux_absent_letter c s hcs
  · intro p hp
    exact (List.of_mem_zip hp).2
  · exact initialRemaining_subset g s
  · rw [zip_get?_of_get? g s i c b hg hs]
    rfl

/-- Claim C2 counterexample: on guess "bobby" against solution "abbey" the
two-pass algorithm does not return Present at position 3: the solution's
two Bs are consumed by the Exact at position 2 and the Present at position
0, so position 3's B is Absent.  The claimed result is therefore false. -/
theorem score_bobby_abbey_fixture_false :
    ¬ score "bobby".toList "abbey".toList =
      [MatchKind.present, MatchKind.absent, MatchKind.exact,
        MatchKind.present, MatchKind.exact] := by
  decide

/-- Claim C2 (amended): scoring "bobby" against "abbey" position by
position gives Present (B), Absent (O), Exact (B), Absent (B), Exact (Y):
after the Exact B at position 2, exactly one B remains, and the
left-to-right second pass gives it to position 0, leaving position 3
Absent. -/
theorem score_bobby_abbey :
    score "bobby".toList "abbey".toList =
      [MatchKind.present, MatchKind.absent, MatchKind.exact,
        MatchKind.absent, MatchKind.exact] := by
  decide

/-- Claim C3: for 5-letter words g and s, score g s has exactly 5 entries;
g = s gives all Exact; and a letter that occurs nowhere in s is Absent at
every position of g where it appears. -/
theorem score_wellformed (g s : Word) (hg : g.length = 5)
    (hs : s.length = 5) :
    (score g s).length = 5 ∧
    (g = s → score g s = List.replicate 5 MatchKind.exact) ∧
    (∀ c, c ∉ s → ∀ i, g.get? i = some c →
      (score g s).get? i = some MatchKind.absent) := by
  refine ⟨?_, ?_, ?_⟩
  · rw [score_length, hg, hs]
    decide
  · intro h
    subst h
    rw [score_self, hg]
  · intro c hcs i hgi
    have hi : i < g.length := by
      by_contra hcon
      rw [List.get?_eq_none.mpr (Nat.le_of_not_lt hcon)] at hgi
      exact Option.noConfusion hgi
    have hi' : i < s.length := by omega
    obtain ⟨b, hb⟩ : ∃ b, s.get? i = some b := by
      cases hsb : s.get? i with
      | none =>
        rw [List.get?_eq_none] at hsb
        omega
      | some b => exact ⟨b, rfl⟩
    exact score_absent g s c hcs i hgi b hb

/-- Witness for C3 at g = "bobby", s = "abbey". -/
theorem score_wellformed_witness :
    ("bobby".toList : Word).length = 5 ∧ ("abbey".toList : Word).length = 5 ∧
    ((score "bobby".toList "abbey".toList).length = 5 ∧
      ("bobby".toList = "abbey".toList →
        score "bobby".toList "abbey".toList =
          List.replicate 5 MatchKind.exact) ∧
      (∀ c, c ∉ "abbey".toList → ∀ i, ("bobby".toList).get? i = some c →
        (score "bobby".toList "abbey".toList).get? i =
          some MatchKind.absent)) :=
  ⟨by decide, by decide, score_wellformed _ _ (by decide) (by decide)⟩

/-- Claim C4 (code bug): the raw-terminal variant guards character input
with c.is_ascii() (src/game.rs line 89), not is_ascii_alphabetic, so the
non-alphabetic ASCII key '1' is pushed into the candidate word from the
initial loop state, while the TUI variant (tui.rs line 49) rejects it. -/
theorem rawStep_accepts_nonalpha :
    rawStep [] [] "abbey".toList initLoop (Key.char '1')
        = StepResult.cont { word := ['1'], guesses := [] } ∧
      rustIsAsciiAlphabetic '1' = false ∧
      tuiAcceptChar [] '1' = [] := by
  refine ⟨by decide, by decide, by decide⟩

theorem ksMax_exact_left (b : KeyStatus) :
    ksMax KeyStatus.exact b = KeyStatus.exact := by
  cases b <;> rfl

theorem kbFold_point (l : List (Char × MatchKind)) (kb : Char → KeyStatus)
    (c : Char) :
    (l.foldl
        (fun acc p => fun d =>
          if d = p.1 then ksMax (acc d) (matchStatus p.2) else acc d)
        kb) c
      = ((l.filter (fun p => p.1 = c)).map
          (fun p => matchStatus p.2)).foldl ksMax (kb c) := by
  induction l generalizing kb with
  | nil => rfl
  | cons p rest ih =>
    obtain ⟨a, k⟩ := p
    simp only [List.foldl_cons]
    rw [ih]
    by_cases h : a = c
    · subst h
      simp [List.filter_cons]
    · have h' : ¬ c = a := fun hc => h hc.symm
      simp [List.filter_cons, h, h']

theorem foldl_ksMax_exact (l : List KeyStatus) :
    l.foldl ksMax KeyStatus.exact = KeyStatus.exact := by
  induction l with
  | nil => rfl
  | cons x xs ih =>
    simp only [List.foldl_cons]
    rw [ksMax_exact_left]
    exact ih

theorem kbUpdate_point (kb : Char → KeyStatus) (w : Word)
    (r : List MatchKind) (c : Char) :
    kbUpdate kb w r c
      = (((List.zip w r).filter (fun p => p.1 = c)).map
          (fun p => matchStatus p.2)).foldl ksMax (kb c) :=
  kbFold_point (List.zip w r) kb c

theorem kbUpdate_keeps_exact (kb : Char → KeyStatus) (w : Word)
    (r : List MatchKind) (c : Char) (h : kb c = KeyStatus.exact) :
    kbUpdate kb w r c = KeyStatus.exact := by
  rw [kbUpdate_point, h, foldl_ksMax_exact]

/-- Claim C8: folding a GuessResult into the keyboard updates each scored
letter by taking successive maxima, under Exact > Present > Absent >
Unknown, of its existing status and the observed kinds (so a single
observation of letter c with kind k stores `ksMax (existing) k`); and over
any sequence of further updates a letter that reached Exact stays Exact. -/
theorem kbUpdate_max_spec :
    (∀ (kb : Char → KeyStatus) (w : Word) (r : List MatchKind) (c : Char),
      kbUpdate kb w r c
        = (((List.zip w r).filter (fun p => p.1 = c)).map
            (fun p => matchStatus p.2)).foldl ksMax (kb c)) ∧
    (∀ (kb : Char → KeyStatus) (c : Char) (k : MatchKind),
      kbUpdate kb [c] [k] c = ksMax (kb c) (matchStatus k)) ∧
    (∀ (updates : List (Word × List MatchKind)) (kb : Char → KeyStatus)
        (c : Char), kb c = KeyStatus.exact →
      (updates.foldl (fun acc p => kbUpdate acc p.1 p.2) kb) c
        = KeyStatus.exact) := by
  refine ⟨kbUpdate_point, ?_, ?_⟩
  · intro kb c k
    rw [kbUpdate_point]
    simp [List.zip, List.filter_cons]
  · intro updates
    induction updates with
    | nil => intro kb c h; exact h
    | cons u rest ih =>
      intro kb c h
      simp only [List.foldl_cons]
      exact ih _ c (kbUpdate_keeps_exact kb u.1 u.2 c h)

/-- Witness for C8: a Present observation on a fresh keyboard stores
Present, and an Absent observation after Exact leaves Exact. -/
theorem kbUpdate_max_spec_witness :
    kbUpdate (fun _ => KeyStatus.unknown) ['b'] [MatchKind.present] 'b'
        = ksMax ((fun _ => KeyStatus.unknown) 'b')
            (matchStatus MatchKind.present) ∧
      ((fun _ => KeyStatus.exact) 'b' = KeyStatus.exact ∧
        ([(['b'], [MatchKind.absent])].foldl
            (fun acc p => kbUpdate acc p.1 p.2)
            (fun _ => KeyStatus.exact)) 'b' = KeyStatus.exact) :=
  ⟨kbUpdate_max_spec.2.1 _ _ _,
    rfl, kbUpdate_max_spec.2.2 _ _ _ rfl⟩

theorem rawStep_cont_inv (accept final : List Word) (sol : Word)
    (st st' : LoopState) (k : Key) (h : LoopInv accept final st)
    (hstep : rawStep accept final sol st k = StepResult.cont st') :
    LoopInv accept final st' := by
  obtain ⟨hw, hg, hn⟩ := h
  cases k with
  | esc => exact absurd hstep (by simp [rawStep])
  | backspace =>
    obtain rfl := StepResult.cont.inj hstep
    refine ⟨?_, hg, hn⟩
    have hd := List.length_dropLast st.word
    simp only [hd]
    omega
  | other =>
    obtain rfl := StepResult.cont.inj hstep
    exact ⟨hw, hg, hn⟩
  | char c =>
    simp only [rawStep] at hstep
    split at hstep
    case isTrue hcond =>
      obtain rfl := StepResult.cont.inj hstep
      refine ⟨?_, hg, hn⟩
      simp only [List.length_append, List.length_cons, List.length_nil]
      omega
    case isFalse =>
      split at hstep
      case isFalse =>
        obtain rfl := StepResult.cont.inj hstep
        exact ⟨hw, hg, hn⟩
      case isTrue hlen =>
        split at hstep
        case isTrue =>
          obtain rfl := StepResult.cont.inj hstep
          exact ⟨hw, hg, hn⟩
        case isFalse hmem =>
          split at hstep
          case isTrue => exact absurd hstep (by simp)
          case isFalse hne =>
            split at hstep
            case isTrue => exact absurd hstep (by simp)
            case isFalse h6 =>
              obtain rfl := StepResult.cont.inj hstep
              refine ⟨by simp, ?_, ?_⟩
              · intro w hwmem
                rcases List.mem_append.mp hwmem with hold | hnew
                · exact hg w hold
                · rw [List.mem_singleton.mp hnew]
                  exact ⟨hlen.2, not_not.mp hmem⟩
              · simp only [List.length_append, List.length_cons,
                  List.length_nil] at h6 ⊢
                omega

theorem rawStep_exit_ok (accept final : List Word) (sol : Word)
    (st : LoopState) (k : Key) (gs : List Word) (sc : Option Char)
    (h : LoopInv accept final st)
    (hstep : rawStep accept final sol st k = StepResult.exitShare gs sc) :
    ExitOk accept final sol gs sc := by
  obtain ⟨hw, hg, hn⟩ := h
  cases k with
  | esc => exact absurd hstep (by simp [rawStep])
  | backspace => exact absurd hstep (by simp [rawStep])
  | other => exact absurd hstep (by simp [rawStep])
  | char c =>
    simp only [rawStep] at hstep
    split at hstep
    case isTrue => exact absurd hstep (by simp)
    case isFalse =>
      split at hstep
      case isFalse => exact absurd hstep (by simp)
      case isTrue hlen =>
        split at hstep
        case isTrue => exact absurd hstep (by simp)
        case isFalse hmem =>
          have hmem' := not_not.mp hmem
          have hguess : GuessListOk accept final
              (st.guesses ++ [st.word]) := by
            intro w hwmem
            rcases List.mem_append.mp hwmem with hold | hnew
            · exact hg w hold
            · rw [List.mem_singleton.mp hnew]
              exact ⟨hlen.2, hmem'⟩
          have hlast : (st.guesses ++ [st.word]).getLast? = some st.word :=
            List.getLast?_concat _
          split at hstep
          case isTrue hwin =>
            obtain ⟨rfl, rfl⟩ := StepResult.exitShare.inj hstep
            have hlt : (st.guesses ++ [st.word]).length < 10 := by
              simp only [List.length_append, List.length_cons,
                List.length_nil]
              omega
            refine ⟨hguess, ?_, ?_, ?_, fun _ => rfl, ?_⟩
            · simp only [List.length_append, List.length_cons,
                List.length_nil]
              omega
            · simp only [List.length_append, List.length_cons,
                List.length_nil]
              omega
            · simp only [charFromDigit]
              rw [if_pos hlt]
              rfl
            · intro w hwlast hwne
              rw [hlast] at hwlast
              exact absurd (Option.some.inj hwlast ▸ hwin) hwne
          case isFalse hwin =>
            split at hstep
            case isFalse => exact absurd hstep (by simp)
            case isTrue h6 =>
              obtain ⟨rfl, rfl⟩ := StepResult.exitShare.inj hstep
              have hlen6 : (st.guesses ++ [st.word]).length = 6 := by
                simp only [List.length_append, List.length_cons,
                  List.length_nil] at h6 ⊢
                omega
              refine ⟨hguess, by omega, by omega, rfl, ?_, ?_⟩
              · intro hsol
                rw [hlast] at hsol
                exact absurd (Option.some.inj hsol) hwin
              · intro w _ _
                exact ⟨rfl, hlen6⟩

theorem runLoop_inv (accept final : List Word) (sol : Word)
    (keys : List Key) (st : LoopState) (h : LoopInv accept final st) :
    (∀ st', runLoop accept final sol st keys = RunResult.running st' →
      LoopInv accept final st') ∧
    (∀ gs sc, runLoop accept final sol st keys = RunResult.exitShare gs sc →
      ExitOk accept final sol gs sc) := by
  induction keys generalizing st with
  | nil =>
    constructor
    · intro st' h'
      obtain rfl := RunResult.running.inj h'
      exact h
    · intro gs sc h'
      exact absurd h' (by simp [runLoop])
  | cons k ks ih =>
    simp only [runLoop]
    cases hstep : rawStep accept final sol st k with
    | cont st2 =>
      exact ih st2 (rawStep_cont_inv accept final sol st st2 k h hstep)
    | exitNone =>
      constructor
      · intro st' h'
        exact absurd h' (by simp)
      · intro gs sc h'
        exact absurd h' (by simp)
    | exitShare gs0 sc0 =>
      constructor
      · intro st' h'
        exact absurd h' (by simp)
      · intro gs sc h'
        obtain ⟨rfl, rfl⟩ := RunResult.exitShare.inj h'
        exact rawStep_exit_ok accept final sol st k gs0 sc0 h hstep

theorem initLoop_inv (accept final : List Word) :
    LoopInv accept final initLoop :=
  ⟨by simp [initLoop], fun w hw => absurd hw (List.not_mem_nil w),
    by simp [initLoop]⟩

/-- Claim C9: in every reachable state of the raw-terminal loop (any key
sequence from the initial state), and in the guess list of any
share-producing exit, every stored word has length exactly 5 and belongs
to the ACCEPT list or the FINAL list. -/
theorem runLoop_guesses_valid (accept final : List Word) (sol : Word)
    (keys : List Key) :
    (∀ st', runLoop accept final sol initLoop keys
        = RunResult.running st' →
      GuessListOk accept final st'.guesses) ∧
    (∀ gs sc, runLoop accept final sol initLoop keys
        = RunResult.exitShare gs sc →
      GuessListOk accept final gs) := by
  have h := runLoop_inv accept final sol keys initLoop
    (initLoop_inv accept final)
  exact ⟨fun st' h' => (h.1 st' h').2.1, fun gs sc h' => (h.2 gs sc h').1⟩

/-- Witness for C9: typing "whoop" (an ACCEPT word) and Enter stores it
and keeps looping; the stored guess is a valid 5-letter dictionary word. -/
theorem runLoop_guesses_valid_witness :
    runLoop ["whoop".toList] ["abbey".toList] "abbey".toList initLoop
        [Key.char 'w', Key.char 'h', Key.char 'o', Key.char 'o',
          Key.char 'p', Key.char '\n']
      = RunResult.running { word := [], guesses := ["whoop".toList] } ∧
    GuessListOk ["whoop".toList] ["abbey".toList] ["whoop".toList] :=
  ⟨by decide,
    (runLoop_guesses_valid ["whoop".toList] ["abbey".toList]
      "abbey".toList
      [Key.char 'w', Key.char 'h', Key.char 'o', Key.char 'o',
        Key.char 'p', Key.char '\n']).1
      { word := [], guesses := ["whoop".toList] } (by decide)⟩

/-- Claim C10: every share-producing exit of the raw-terminal loop stores
between 1 and 6 guesses, and its score character exists; in particular
when the last submitted word equals the solution the score is
`char::from_digit(guesses.len(), 10)` and that conversion succeeds, so the
source's unwrap cannot panic. -/
theorem runLoop_win_score_digit (accept final : List Word) (sol : Word)
    (keys : List Key) (gs : List Word) (sc : Option Char)
    (hrun : runLoop accept final sol initLoop keys
      = RunResult.exitShare gs sc) :
    1 ≤ gs.length ∧ gs.length ≤ 6 ∧ sc.isSome = true ∧
      (gs.getLast? = some sol →
        sc = charFromDigit gs.length ∧
          (charFromDigit gs.length).isSome = true) := by
  have h := (runLoop_inv accept final sol keys initLoop
    (initLoop_inv accept final)).2 gs sc hrun
  obtain ⟨_, h1, h6, hsome, hwin, _⟩ := h
  refine ⟨h1, h6, hsome, fun hl => ⟨hwin hl, ?_⟩⟩
  rw [← hwin hl]
  exact hsome

/-- Witness for C10: winning on the first guess exits with one stored
guess and score character '1'. -/
theorem runLoop_win_score_digit_witness :
    runLoop ["whoop".toList] ["abbey".toList] "abbey".toList initLoop
        [Key.char 'a', Key.char 'b', Key.char 'b', Key.char 'e',
          Key.char 'y', Key.char '\n']
      = RunResult.exitShare ["abbey".toList] (some '1') ∧
    (1 ≤ (["abbey".toList] : List Word).length ∧
      ((["abbey".toList] : List Word).length ≤ 6 ∧
        (some '1').isSome = true ∧
        ((["abbey".toList] : List Word).getLast? = some "abbey".toList →
          (some '1' : Option Char)
              = charFromDigit (["abbey".toList] : List Word).length ∧
            (charFromDigit
              (["abbey".toList] : List Word).length).isSome = true))) :=
  ⟨by decide, by decide,
    (runLoop_win_score_digit ["whoop".toList] ["abbey".toList]
      "abbey".toList
      [Key.char 'a', Key.char 'b', Key.char 'b', Key.char 'e',
        Key.char 'y', Key.char '\n']
      ["abbey".toList] (some '1') (by decide)).2⟩

/-- Claim C7: the share of a finished raw-terminal game renders as the
header line (game-type label, then score, then "/6") followed by exactly
one line per stored guess, in guess order, each line carrying exactly 5
glyphs index-aligned with the guess's MatchKinds; a winning game's score
character is the number of turns used, a lost game's is 'X'. -/
theorem shareLines_spec (gt : GameType) (accept final : List Word)
    (sol : Word) (keys : List Key) (gs : List Word) (oc : Option Char)
    (sc : Char) (hsol : sol.length = 5)
    (hrun : runLoop accept final sol initLoop keys
      = RunResult.exitShare gs oc)
    (hoc : oc = some sc) :
    (shareLines (gameShare gt gs sol sc)).length = gs.length + 1 ∧
    (shareLines (gameShare gt gs sol sc)).get? 0
      = some (shareHeader gt sc) ∧
    (∀ j w, gs.get? j = some w →
      (shareLines (gameShare gt gs sol sc)).get? (j + 1)
          = some ((score w sol).map matchGlyph) ∧
        ((score w sol).map matchGlyph).length = 5) ∧
    (gs.getLast? = some sol → some sc = charFromDigit gs.length) ∧
    (∀ w, gs.getLast? = some w → w ≠ sol → sc = 'X') := by
  have h := (runLoop_inv accept final sol keys initLoop
    (initLoop_inv accept final)).2 gs oc hrun
  obtain ⟨hgl, h1, h6, hsome, hwin, hloss⟩ := h
  subst hoc
  refine ⟨?_, rfl, ?_, hwin, ?_⟩
  · simp [shareLines, gameShare]
  · intro j w hj
    constructor
    · simp only [shareLines, gameShare, List.get?_cons_succ,
        List.get?_map, hj, Option.map_some']
    · have hw5 : w.length = 5 := (hgl w (List.get?_mem hj)).1
      rw [List.length_map, score_length, hw5, hsol]
      decide
  · intro w hlw hwne
    exact Option.some.inj (hloss w hlw hwne).1

/-- Witness for C7: the share of the one-guess winning game has a header
plus one guess line of 5 glyphs. -/
theorem shareLines_spec_witness :
    ("abbey".toList : Word).length = 5 ∧
    runLoop ["whoop".toList] ["abbey".toList] "abbey".toList initLoop
        [Key.char 'a', Key.char 'b', Key.char 'b', Key.char 'e',
          Key.char 'y', Key.char '\n']
      = RunResult.exitShare ["abbey".toList] (some '1') ∧
    (shareLines
        (gameShare GameType.custom ["abbey".toList]
          "abbey".toList '1')).length
      = (["abbey".toList] : List Word).length + 1 :=
  ⟨by decide, by decide,
    (shareLines_spec GameType.custom ["whoop".toList] ["abbey".toList]
      "abbey".toList
      [Key.char 'a', Key.char 'b', Key.char 'b', Key.char 'e',
        Key.char 'y', Key.char '\n']
      ["abbey".toList] (some '1') '1'
      (by decide) (by decide) rfl).1⟩

theorem submitGuess_ok_shape (accept final : List Word) (st st' : GameState)
    (w : Word) (h : submitGuess accept final st w = Except.ok st') :
    st.outcome = Outcome.inProgress ∧ w.length = 5 ∧
      (w ∈ accept ∨ w ∈ final) ∧
      st' = { st with
        guesses := st.guesses ++ [(w, score w st.solution)],
        keyboard := kbUpdate st.keyboard w (score w st.solution),
        outcome :=
          if w = st.solution then
            Outcome.won (st.guesses ++ [(w, score w st.solution)]).length
          else if (st.guesses ++ [(w, score w st.solution)]).length = 6 then
            Outcome.lost
          else Outcome.inProgress } := by
  simp only [submitGuess] at h
  split at h
  case isTrue => exact absurd h (by simp)
  case isFalse hterm =>
    split at h
    case isTrue => exact absurd h (by simp)
    case isFalse hlen =>
      split at h
      case isTrue => exact absurd h (by simp)
      case isFalse hmem =>
        have houtcome : st.outcome = Outcome.inProgress := by
          cases hoc : st.outcome with
          | inProgress => rfl
          | won n => rw [hoc] at hterm; exact absurd rfl hterm
          | lost => rw [hoc] at hterm; exact absurd rfl hterm
        exact ⟨houtcome, not_not.mp hlen, not_not.mp hmem,
          (Except.ok.inj h).symm⟩

theorem submitGuess_solution (accept final : List Word)
    (st st' : GameState) (w : Word)
    (h : submitGuess accept final st w = Except.ok st') :
    st'.solution = st.solution := by
  obtain ⟨-, -, -, rfl⟩ := submitGuess_ok_shape accept final st st' w h
  rfl

theorem stepStar_solution (accept final : List Word) (st : GameState)
    (ws : List Word) :
    (stepStar accept final st ws).solution = st.solution := by
  induction ws generalizing st with
  | nil => rfl
  | cons w ws ih =>
    simp only [stepStar]
    cases hsub : submitGuess accept final st w with
    | ok st' =>
      rw [ih st', submitGuess_solution accept final st st' w hsub]
    | error e => exact ih st

theorem submitGuess_preserves_inv (accept final : List Word)
    (st st' : GameState) (w : Word) (hInv : StateInv st)
    (h : submitGuess accept final st w = Except.ok st') :
    StateInv st' := by
  obtain ⟨houtcome, hlen5, hmem, rfl⟩ :=
    submitGuess_ok_shape accept final st st' w h
  obtain ⟨hprog, hgold⟩ := hInv.1 houtcome
  by_cases hw : w = st.solution
  · refine ⟨?_, ?_, ?_⟩
    · intro hcon
      simp only [if_pos hw] at hcon
      exact absurd hcon (by simp)
    · intro n hn
      simp only [if_pos hw] at hn
      obtain rfl := (Outcome.won.inj hn).symm
      simp only [List.length_append, List.length_cons, List.length_nil]
      refine ⟨by trivial, by omega, by omega, ?_, ?_⟩
      · have : st.guesses.length + 1 - 1 = st.guesses.length := by omega
        simp only [List.length_append, List.length_cons, List.length_nil,
          this]
        rw [List.get?_concat_length]
        simp [hw]
      · intro i hi
        have hi' : i < st.guesses.length := by omega
        rw [List.get?_append hi']
        intro hcon
        cases hq : st.guesses.get? i with
        | none => rw [hq] at hcon; exact Option.noConfusion hcon
        | some p =>
          rw [hq] at hcon
          simp only [Option.map_some'] at hcon
          exact hgold p (List.get?_mem hq) (Option.some.inj hcon)
    · intro hcon
      simp only [if_pos hw] at hcon
      exact absurd hcon (by simp)
  · by_cases h6 : (st.guesses ++ [(w, score w st.solution)]).length = 6
    · refine ⟨?_, ?_, ?_⟩
      · intro hcon
        simp only [if_neg hw, if_pos h6] at hcon
        exact absurd hcon (by simp)
      · intro n hn
        simp only [if_neg hw, if_pos h6] at hn
        exact absurd hn (by simp)
      · intro _
        exact h6
    · refine ⟨?_, ?_, ?_⟩
      · intro _
        constructor
        · simp only [List.length_append, List.length_cons,
            List.length_nil] at h6 ⊢
          omega
        · intro p hp
          rcases List.mem_append.mp hp with hold | hnew
          · exact hgold p hold
          · rw [List.mem_singleton.mp hnew]
            exact hw
      · intro n hn
        simp only [if_neg hw, if_neg h6] at hn
        exact absurd hn (by simp)
      · intro hcon
        simp only [if_neg hw, if_neg h6] at hcon
        exact absurd hcon (by simp)

theorem stepStar_inv (accept final : List Word) (st : GameState)
    (ws : List Word) (h : StateInv st) :
    StateInv (stepStar accept final st ws) := by
  induction ws generalizing st with
  | nil => exact h
  | cons w ws ih =>
    simp only [stepStar]
    cases hsub : submitGuess accept final st w with
    | ok st' =>
      exact ih st' (submitGuess_preserves_inv accept final st st' w h hsub)
    | error e => exact ih st h

theorem initState_inv (sol : Word) : StateInv (initState sol) := by
  refine ⟨fun _ => ⟨by simp [initState], ?_⟩, fun n hn => ?_, fun hl => ?_⟩
  · intro p hp
    exact absurd hp (List.not_mem_nil p)
  · exact absurd hn (by simp [initState])
  · exact absurd hl (by simp [initState])

/-- Claim C1: a successfully submitted guess appends one entry and moves
the outcome to Won(new guess count) when the word equals the solution
(also on the sixth guess), to Lost when it is the sixth non-matching
guess, and keeps InProgress otherwise; moreover in any state reached from
a fresh game, Won n implies 1 ≤ n ≤ 6, exactly n stored guesses, the n-th
guess equal to the solution, and guesses 1..n-1 different from it. -/
theorem submitGuess_transitions :
    (∀ (accept final : List Word) (st st' : GameState) (w : Word),
      submitGuess accept final st w = Except.ok st' →
      st'.guesses.length = st.guesses.length + 1 ∧
      (w = st.solution → st'.outcome = Outcome.won st'.guesses.length) ∧
      (w ≠ st.solution → st'.guesses.length = 6 →
        st'.outcome = Outcome.lost) ∧
      (w ≠ st.solution → st'.guesses.length ≠ 6 →
        st'.outcome = Outcome.inProgress)) ∧
    (∀ (accept final : List Word) (sol : Word) (ws : List Word) (n : Nat),
      (stepStar accept final (initState sol) ws).outcome = Outcome.won n →
      1 ≤ n ∧ n ≤ 6 ∧
      (stepStar accept final (initState sol) ws).guesses.length = n ∧
      ((stepStar accept final (initState sol) ws).guesses.get?
        (n - 1)).map Prod.fst = some sol ∧
      ∀ i < n - 1,
        ((stepStar accept final (initState sol) ws).guesses.get?
          i).map Prod.fst ≠ some sol) := by
  constructor
  · intro accept final st st' w h
    obtain ⟨-, -, -, rfl⟩ := submitGuess_ok_shape accept final st st' w h
    refine ⟨by simp, ?_, ?_, ?_⟩
    · intro hw
      simp only [if_pos hw]
    · intro hw h6
      simp only [List.length_append, List.length_cons,
        List.length_nil] at h6
      simp only [if_neg hw, List.length_append, List.length_cons,
        List.length_nil, if_pos h6]
    · intro hw h6
      simp only [List.length_append, List.length_cons,
        List.length_nil] at h6
      simp only [if_neg hw, List.length_append, List.length_cons,
        List.length_nil, if_neg h6]
  · intro accept final sol ws n hn
    have hsol := stepStar_solution accept final (initState sol) ws
    have hinv := (stepStar_inv accept final (initState sol) ws
      (initState_inv sol)).2.1 n hn
    rw [hsol] at hinv
    obtain ⟨hlen, h1, h6, hnth, hbefore⟩ := hinv
    exact ⟨h1, h6, hlen.symm, hnth, hbefore⟩

/-- Witness for C1: winning a fresh game on the first submission reaches
Won 1 with exactly that guess stored and equal to the solution. -/
theorem submitGuess_transitions_witness :
    (stepStar ["abbey".toList] [] (initState "abbey".toList)
        ["abbey".toList]).outcome = Outcome.won 1 ∧
    (1 ≤ 1 ∧ 1 ≤ 6 ∧
      (stepStar ["abbey".toList] [] (initState "abbey".toList)
        ["abbey".toList]).guesses.length = 1 ∧
      ((stepStar ["abbey".toList] [] (initState "abbey".toList)
        ["abbey".toList]).guesses.get? (1 - 1)).map Prod.fst
        = some "abbey".toList ∧
      ∀ i < 1 - 1,
        ((stepStar ["abbey".toList] [] (initState "abbey".toList)
          ["abbey".toList]).guesses.get? i).map Prod.fst
          ≠ some "abbey".toList) :=
  ⟨by decide,
    submitGuess_transitions.2 ["abbey".toList] [] "abbey".toList
      ["abbey".toList] 1 (by decide)⟩

/-- Claim C5: from an in-progress state, a 5-letter candidate is rejected
with NotInDictionary exactly when it is in neither word list, and any
number of resubmissions of such a candidate leaves the whole state (guess
list, outcome, keyboard) unchanged. -/
theorem submitGuess_notInDictionary_iff (accept final : List Word)
    (st : GameState) (w : Word) (h1 : st.outcome = Outcome.inProgress)
    (h2 : w.length = 5) :
    (submitGuess accept final st w
        = Except.error GuessError.notInDictionary
      ↔ (w ∉ accept ∧ w ∉ final)) ∧
    (w ∉ accept ∧ w ∉ final →
      ∀ k, stepStar accept final st (List.replicate k w) = st) := by
  have hterm : ¬ (st.outcome.isTerminal = true) := by
    rw [h1]
    simp [Outcome.isTerminal]
  have hlen : ¬ (w.length ≠ 5) := not_not.mpr h2
  by_cases hm : w ∈ accept ∨ w ∈ final
  · constructor
    · constructor
      · intro hcon
        simp only [submitGuess, if_neg hterm, if_neg hlen,
          if_neg (not_not.mpr hm)] at hcon
        exact absurd hcon (by simp)
      · intro hcon
        exact absurd hm (by
          rcases hm with hma | hmf
          · exact fun _ => hcon.1 hma
          · exact fun _ => hcon.2 hmf)
    · intro hcon
      rcases hm with hma | hmf
      · exact absurd hma hcon.1
      · exact absurd hmf hcon.2
  · have herr : submitGuess accept final st w
        = Except.error GuessError.notInDictionary := by
      simp only [submitGuess, if_neg hterm, if_neg hlen, if_pos hm]
    constructor
    · exact ⟨fun _ => ⟨fun ha => hm (Or.inl ha), fun hf => hm (Or.inr hf)⟩,
        fun _ => herr⟩
    · intro _ k
      induction k with
      | zero => rfl
      | succ j ih =>
        simp only [List.replicate_succ, stepStar, herr]
        exact ih

/-- Witness for C5: the out-of-dictionary 5-letter word "zzzzz" is
rejected with NotInDictionary by a fresh game and three resubmissions
leave the state identical. -/
theorem submitGuess_notInDictionary_iff_witness :
    (initState "abbey".toList).outcome = Outcome.inProgress ∧
    ("zzzzz".toList : Word).length = 5 ∧
    ((submitGuess ["whoop".toList] ["abbey".toList]
          (initState "abbey".toList) "zzzzz".toList
        = Except.error GuessError.notInDictionary
      ↔ ("zzzzz".toList ∉ ["whoop".toList] ∧
          "zzzzz".toList ∉ ["abbey".toList])) ∧
      ("zzzzz".toList ∉ ["whoop".toList] ∧
          "zzzzz".toList ∉ ["abbey".toList] →
        ∀ k, stepStar ["whoop".toList] ["abbey".toList]
            (initState "abbey".toList) (List.replicate k "zzzzz".toList)
          = initState "abbey".toList)) :=
  ⟨rfl, by decide,
    submitGuess_notInDictionary_iff ["whoop".toList] ["abbey".toList]
      (initState "abbey".toList) "zzzzz".toList rfl (by decide)⟩

/-- Claim C6: once the outcome is Won or Lost, every submission fails with
GameOver and the state never changes again, so nothing is ever appended to
the guess list. -/
theorem submitGuess_terminal_gameOver (accept final : List Word)
    (st : GameState) (w : Word)
    (h : (∃ n, st.outcome = Outcome.won n) ∨ st.outcome = Outcome.lost) :
    submitGuess accept final st w = Except.error GuessError.gameOver ∧
    ∀ ws, stepStar accept final st ws = st := by
  have hterm : st.outcome.isTerminal = true := by
    rcases h with ⟨n, hn⟩ | hl
    · rw [hn]
      rfl
    · rw [hl]
      rfl
  have herr : ∀ v, submitGuess accept final st v
      = Except.error GuessError.gameOver := by
    intro v
    simp only [submitGuess, hterm]
    rw [if_pos trivial]
  constructor
  · exact herr w
  · intro ws
    induction ws with
    | nil => rfl
    | cons v vs ih =>
      simp only [stepStar, herr v]
      exact ih

/-- Witness for C6: a won state rejects a further guess with GameOver and
stays itself across any submission sequence (here two more guesses). -/
theorem submitGuess_terminal_gameOver_witness :
    ((∃ n, wonState.outcome = Outcome.won n) ∨
      wonState.outcome = Outcome.lost) ∧
    (submitGuess ["whoop".toList] ["abbey".toList] wonState
        "whoop".toList = Except.error GuessError.gameOver ∧
      ∀ ws, stepStar ["whoop".toList] ["abbey".toList] wonState ws
        = wonState) :=
  ⟨Or.inl ⟨1, rfl⟩,
    submitGuess_terminal_gameOver ["whoop".toList] ["abbey".toList]
      wonState "whoop".toList (Or.inl ⟨1, rfl⟩)⟩

end Wordle
